import Mathlib

/-!
# Verification of the bp-core seal, taproot and lock-script commitment model

Shallow embedding of the `bp-core` sources:

* `seals/src/txout/blind.rs` — blinded single-use seals (`RevealedSeal`,
  `ConcealedSeal`, textual codec, outpoint projection);
* `seals/src/lib.rs` — txout seal close methods;
* `primitives/src/taproot.rs` — taproot tagged hashes, leaf versions, parity;
* `dbc/src/lockscript.rs` — the LNPBP-2 lock-script commitment engine.

Bytes are modelled as `Nat` (with explicit `< 256` bounds where they matter)
and Rust strings as `List Char`.  The external SHA-256 engine (from the
`commit_verify` crate, outside this repository) is modelled symbolically: an
engine accumulates the tag it was keyed with and the bytes fed to it, and
`finish` returns that pair as the digest.  This is the free model of an
external hash engine: two digests are equal exactly when the same tag and the
same byte stream were hashed.
-/

namespace BpCore

/-- Symbolic digest of the external SHA-256 engine: the tag (midstate bytes)
the engine was created from, and the byte stream fed to it. -/
structure Digest where
  tag : List Nat
  data : List Nat
deriving DecidableEq

/-- Symbolic state of `commit_verify::Sha256`: tag plus accumulated input. -/
structure Sha256 where
  tag : List Nat
  data : List Nat
deriving DecidableEq

/-- `Sha256::from_tag(tag)` — fresh engine keyed by the given tag/midstate. -/
def Sha256.from_tag (t : List Nat) : Sha256 := ⟨t, []⟩

/-- `engine.input(bytes)` — feed bytes to the engine. -/
def Sha256.input (e : Sha256) (bs : List Nat) : Sha256 := ⟨e.tag, e.data ++ bs⟩

/-- `engine.input_raw(bytes)` — same accumulation as `input` in this model. -/
def Sha256.input_raw (e : Sha256) (bs : List Nat) : Sha256 := e.input bs

/-- `engine.finish()` — the resulting digest. -/
def Sha256.finish (e : Sha256) : Digest := ⟨e.tag, e.data⟩

/-- The spec's `tagged_sha256(tag, data)` primitive, in the same symbolic
model as the engine. -/
def taggedSha256 (t data : List Nat) : Digest := ⟨t, data⟩

/-! ## Close methods (`seals/src/lib.rs`, `TxoutMethod` / `CloseMethod`) -/

/-- Seal close method: `OpretFirst = 0x00`, `TapretFirst = 0x01`. -/
inductive CloseMethod where
  | OpretFirst
  | TapretFirst
deriving DecidableEq

/-- `method as u8` — the discriminant of the `#[repr(u8)]` enum. -/
def CloseMethod.toByte : CloseMethod → Nat
  | .OpretFirst => 0x00
  | .TapretFirst => 0x01

/-! ## Txid and the revealed seal (`seals/src/txout/blind.rs`) -/

/-- A transaction id: 32 bytes.  `bp::Txid` itself is outside `src/`;
modelled from the spec as a 32-byte value. -/
def Txid := { l : List Nat // l.length = 32 ∧ ∀ b ∈ l, b < 256 }
deriving DecidableEq

/-- The all-zero txid, `Txid::from([0u8; 32])`. -/
def zeroTxid : Txid := ⟨List.replicate 32 0, by decide⟩

/-- `RevealedSeal` — revealed seal definition (method, optional txid, vout,
64-bit blinding).  `vout` and `blinding` are `Nat` images of `u32`/`u64`. -/
structure RevealedSeal where
  method : CloseMethod
  txid : Option Txid
  vout : Nat
  blinding : Nat
deriving DecidableEq

/-- Well-formedness carried by the Rust types: `vout` fits `u32` and
`blinding` fits `u64`. -/
def RevealedSeal.WF (r : RevealedSeal) : Prop :=
  r.vout < 2 ^ 32 ∧ r.blinding < 2 ^ 64

instance (r : RevealedSeal) : Decidable r.WF := by
  unfold RevealedSeal.WF; infer_instance

/-- `u32::to_le_bytes` — 4 little-endian bytes. -/
def le32 (v : Nat) : List Nat :=
  [v % 256, v / 2 ^ 8 % 256, v / 2 ^ 16 % 256, v / 2 ^ 24 % 256]

/-- `u64::to_le_bytes` — 8 little-endian bytes. -/
def le64 (v : Nat) : List Nat :=
  [v % 256, v / 2 ^ 8 % 256, v / 2 ^ 16 % 256, v / 2 ^ 24 % 256,
   v / 2 ^ 32 % 256, v / 2 ^ 40 % 256, v / 2 ^ 48 % 256, v / 2 ^ 56 % 256]

/-- `reveal.txid.unwrap_or_else(|| Txid::from([0u8; 32]))[..]` — the txid
bytes, or 32 zero bytes when absent. -/
def txidOrZeros (r : RevealedSeal) : List Nat :=
  (r.txid.getD zeroTxid).val

/-- `MIDSTATE_CONCEALED_SEAL` — the literal from `seals/src/txout/blind.rs`
(decimal bytes, exactly as in the source). -/
def MIDSTATE_CONCEALED_SEAL : List Nat :=
  [250, 13, 163, 5, 178, 220, 248, 173, 139, 222, 67, 198, 134, 127, 63, 153,
   147, 236, 172, 33, 17, 167, 176, 30, 70, 99, 185, 129, 217, 110, 183, 27]

/-- `ConcealedSeal` is a 32-byte hash; in the symbolic hash model it is the
digest produced by the engine. -/
def ConcealedSeal := Digest
deriving DecidableEq

/-- `ConcealedSeal::commit(reveal)` — the exact engine pipeline from
`seals/src/txout/blind.rs` lines 331-341. -/
def ConcealedSeal.commit (reveal : RevealedSeal) : ConcealedSeal :=
  let engine := Sha256.from_tag MIDSTATE_CONCEALED_SEAL
  let engine := engine.input [reveal.method.toByte]
  let engine := engine.input (txidOrZeros reveal)
  let engine := engine.input (le32 reveal.vout)
  let engine := engine.input (le64 reveal.blinding)
  engine.finish

/-! ## Outpoint projection (`TryFrom<&RevealedSeal> for Outpoint`) -/

/-- `bp::Outpoint` — a (txid, vout) pair; outside `src/`, modelled from the
spec's outpoint projection. -/
structure Outpoint where
  txid : Txid
  vout : Nat
deriving DecidableEq

/-- The `WitnessVoutError` unit error. -/
inductive WitnessVoutError where
  | mk
deriving DecidableEq

/-- `Outpoint::try_from(&RevealedSeal)` from `blind.rs` lines 67-77:
`reveal.txid.map(|txid| Outpoint::new(txid, reveal.vout)).ok_or(WitnessVoutError)`. -/
def Outpoint.tryFromRevealed (r : RevealedSeal) :
    Except WitnessVoutError Outpoint :=
  match r.txid with
  | some t => .ok ⟨t, r.vout⟩
  | none => .error .mk

/-- `TxoSeal::outpoint` for `RevealedSeal` (`blind.rs` line 140):
`self.try_into().ok()`. -/
def RevealedSeal.outpoint (r : RevealedSeal) : Option Outpoint :=
  (Outpoint.tryFromRevealed r).toOption

/-! ## Supporting lemmas on the commit payload -/

theorem txidOrZeros_length (r : RevealedSeal) : (txidOrZeros r).length = 32 := by
  unfold txidOrZeros
  cases h : r.txid with
  | none => simp [zeroTxid]
  | some t => simpa using t.property.1

theorem le32_inj {v1 v2 : Nat} (h1 : v1 < 2 ^ 32) (h2 : v2 < 2 ^ 32)
    (h : le32 v1 = le32 v2) : v1 = v2 := by
  simp only [le32, List.cons.injEq, and_true] at h
  omega

theorem le64_inj {v1 v2 : Nat} (h1 : v1 < 2 ^ 64) (h2 : v2 < 2 ^ 64)
    (h : le64 v1 = le64 v2) : v1 = v2 := by
  simp only [le64, List.cons.injEq, and_true] at h
  omega

theorem commit_data (r : RevealedSeal) :
    (ConcealedSeal.commit r).data =
      [r.method.toByte] ++ txidOrZeros r ++ le32 r.vout ++ le64 r.blinding := by
  simp [ConcealedSeal.commit, Sha256.from_tag, Sha256.input, Sha256.finish]

/-- **C2.** For every `RevealedSeal`, `ConcealedSeal::commit` equals the
tagged SHA-256 keyed by the literal 32-byte midstate
`fa 0d a3 05 b2 dc f8 ad 8b de 43 c6 86 7f 3f 99 93 ec ac 21 11 a7 b0 1e 46
63 b9 81 d9 6e b7 1b`, applied to the concatenation of one method byte, the
32-byte txid (or 32 zero bytes when absent), the vout as little-endian u32,
and the blinding as little-endian u64, in that order. -/
theorem concealed_seal_commit_spec (r : RevealedSeal) :
    ConcealedSeal.commit r =
      taggedSha256
        [0xfa, 0x0d, 0xa3, 0x05, 0xb2, 0xdc, 0xf8, 0xad,
         0x8b, 0xde, 0x43, 0xc6, 0x86, 0x7f, 0x3f, 0x99,
         0x93, 0xec, 0xac, 0x21, 0x11, 0xa7, 0xb0, 0x1e,
         0x46, 0x63, 0xb9, 0x81, 0xd9, 0x6e, 0xb7, 0x1b]
        ([r.method.toByte] ++ txidOrZeros r ++ le32 r.vout ++
          le64 r.blinding) := by
  simp [ConcealedSeal.commit, Sha256.from_tag, Sha256.input, Sha256.finish,
    taggedSha256, MIDSTATE_CONCEALED_SEAL]

/-- **C5 (counterexample).** Two seals that differ in exactly the txid field
(absent versus the all-zero txid, with method, vout and blinding equal)
produce the SAME concealed hash: the claimed distinctness fails. -/
theorem concealed_seal_flip_collision :
    let r1 : RevealedSeal :=
      { method := .OpretFirst, txid := some zeroTxid, vout := 0, blinding := 0 }
    let r2 : RevealedSeal :=
      { method := .OpretFirst, txid := none, vout := 0, blinding := 0 }
    r1.method = r2.method ∧ r1.txid ≠ r2.txid ∧ r1.vout = r2.vout ∧
      r1.blinding = r2.blinding ∧
      ConcealedSeal.commit r1 = ConcealedSeal.commit r2 := by
  refine ⟨rfl, by simp, rfl, rfl, ?_⟩
  simp [ConcealedSeal.commit, txidOrZeros, zeroTxid]

/-- **C5 (amended).** For well-formed seals, the concealed hashes (equally,
the byte strings fed to the tagged hash) coincide exactly when the method,
the txid-or-zeros encoding, the vout and the blinding all coincide.  Hence
every single-field flip yields distinct hashes, except flipping the txid
between `None` and `Some` all-zero txid, which encode identically. -/
theorem concealed_seal_commit_inj {r1 r2 : RevealedSeal}
    (h1 : r1.WF) (h2 : r2.WF) :
    ConcealedSeal.commit r1 = ConcealedSeal.commit r2 ↔
      (r1.method = r2.method ∧ txidOrZeros r1 = txidOrZeros r2 ∧
        r1.vout = r2.vout ∧ r1.blinding = r2.blinding) := by
  constructor
  · intro h
    have hdata := congrArg Digest.data h
    rw [commit_data, commit_data] at hdata
    have hm : r1.method.toByte = r2.method.toByte := by
      have := List.head_eq_of_cons_eq (by simpa using hdata)
      simpa using this
    have hmethod : r1.method = r2.method := by
      cases hmr1 : r1.method <;> cases hmr2 : r2.method <;>
        simp_all [CloseMethod.toByte]
    have htail : txidOrZeros r1 ++ (le32 r1.vout ++ le64 r1.blinding) =
        txidOrZeros r2 ++ (le32 r2.vout ++ le64 r2.blinding) := by
      have := List.tail_eq_of_cons_eq (by simpa using hdata)
      simpa [List.append_assoc] using this
    have hlen : (txidOrZeros r1).length = (txidOrZeros r2).length := by
      rw [txidOrZeros_length, txidOrZeros_length]
    obtain ⟨htxid, hrest⟩ := List.append_inj htail hlen
    have hlen32 : (le32 r1.vout).length = (le32 r2.vout).length := by
      simp [le32]
    obtain ⟨hv, hb⟩ := List.append_inj hrest hlen32
    exact ⟨hmethod, htxid, le32_inj h1.1 h2.1 hv, le64_inj h1.2 h2.2 hb⟩
  · rintro ⟨hm, ht, hv, hb⟩
    simp [ConcealedSeal.commit, hm, ht, hv, hb]

/-- **C5 (amended) witness.** The amended injectivity at concrete inputs. -/
theorem concealed_seal_commit_inj_witness :
    let r1 : RevealedSeal :=
      { method := .OpretFirst, txid := none, vout := 1, blinding := 2 }
    let r2 : RevealedSeal :=
      { method := .TapretFirst, txid := none, vout := 1, blinding := 2 }
    r1.WF ∧ r2.WF ∧ ConcealedSeal.commit r1 ≠ ConcealedSeal.commit r2 := by
  refine ⟨by decide, by decide, ?_⟩
  intro h
  have := (concealed_seal_commit_inj (by decide) (by decide)).mp h
  simp at this

/-- **C10.** Projecting a `RevealedSeal` to an `Outpoint` succeeds exactly
when the txid is present: `Outpoint::try_from` returns
`Outpoint::new(txid, vout)` when `txid = Some txid` and `WitnessVoutError`
when it is `None`; `TxoSeal::outpoint` correspondingly returns `Some`/`None`. -/
theorem outpoint_projection (r : RevealedSeal) :
    (∀ t, r.txid = some t →
      Outpoint.tryFromRevealed r = .ok ⟨t, r.vout⟩ ∧
        r.outpoint = some ⟨t, r.vout⟩) ∧
    (r.txid = none →
      Outpoint.tryFromRevealed r = .error .mk ∧ r.outpoint = none) := by
  constructor
  · intro t ht
    simp [Outpoint.tryFromRevealed, RevealedSeal.outpoint, ht, Except.toOption]
  · intro ht
    simp [Outpoint.tryFromRevealed, RevealedSeal.outpoint, ht, Except.toOption]

/-- **C10 witness.** The projection facts at concrete seals. -/
theorem outpoint_projection_witness :
    let rs : RevealedSeal :=
      { method := .TapretFirst, txid := some zeroTxid, vout := 3, blinding := 7 }
    let rn : RevealedSeal :=
      { method := .TapretFirst, txid := none, vout := 3, blinding := 7 }
    (Outpoint.tryFromRevealed rs = .ok ⟨zeroTxid, 3⟩ ∧
      rs.outpoint = some ⟨zeroTxid, 3⟩) ∧
    (Outpoint.tryFromRevealed rn = .error .mk ∧ rn.outpoint = none) := by
  exact ⟨(outpoint_projection _).1 zeroTxid rfl, (outpoint_projection _).2 rfl⟩

instance {ε α : Type} [DecidableEq ε] [DecidableEq α] :
    DecidableEq (Except ε α) := fun x y => by
  cases x with
  | error a =>
    cases y with
    | error b =>
      exact if h : a = b then .isTrue (by simp [h]) else .isFalse (by simp [h])
    | ok b => exact .isFalse (by simp)
  | ok a =>
    cases y with
    | error b => exact .isFalse (by simp)
    | ok b =>
      exact if h : a = b then .isTrue (by simp [h]) else .isFalse (by simp [h])

/-! ## Taproot leaf versions (`primitives/src/taproot.rs`) -/

/-- `TAPROOT_ANNEX_PREFIX = 0x50`. -/
def TAPROOT_ANNEX_PREFIX : Nat := 0x50

/-- `TAPROOT_LEAF_TAPSCRIPT = 0xc0`. -/
def TAPROOT_LEAF_TAPSCRIPT : Nat := 0xc0

/-- `TAPROOT_LEAF_MASK = 0xfe`. -/
def TAPROOT_LEAF_MASK : Nat := 0xfe

/-- The `InvalidLeafVer(u8)` error. -/
structure InvalidLeafVer where
  val : Nat
deriving DecidableEq

/-- `FutureLeafVer(u8)` — future (non-tapscript) leaf version. -/
structure FutureLeafVer where
  val : Nat
deriving DecidableEq

/-- `FutureLeafVer::from_consensus` (`taproot.rs` lines 372-381).  The
`0xC0` arm is `unreachable!` in the source (the caller filters it out);
it is modelled as an error so the function stays total. -/
def FutureLeafVer.from_consensus (version : Nat) :
    Except InvalidLeafVer FutureLeafVer :=
  if version = TAPROOT_LEAF_TAPSCRIPT then .error ⟨TAPROOT_LEAF_TAPSCRIPT⟩
  else if version = TAPROOT_ANNEX_PREFIX then .error ⟨TAPROOT_ANNEX_PREFIX⟩
  else if Nat.land version TAPROOT_LEAF_MASK ≠ version then
    .error ⟨version⟩
  else .ok ⟨version⟩

/-- `FutureLeafVer::to_consensus`. -/
def FutureLeafVer.to_consensus (v : FutureLeafVer) : Nat := v.val

/-- `LeafVer` — BIP-342 tapscript or a future leaf version. -/
inductive LeafVer where
  | TapScript
  | Future (v : FutureLeafVer)
deriving DecidableEq

/-- `LeafVer::from_consensus_u8` (`taproot.rs` lines 330-336). -/
def LeafVer.from_consensus_u8 (version : Nat) :
    Except InvalidLeafVer LeafVer :=
  if version = TAPROOT_LEAF_TAPSCRIPT then .ok .TapScript
  else if version = TAPROOT_ANNEX_PREFIX then .error ⟨TAPROOT_ANNEX_PREFIX⟩
  else (FutureLeafVer.from_consensus version).map .Future

/-- `LeafVer::to_consensus_u8`. -/
def LeafVer.to_consensus_u8 : LeafVer → Nat
  | .TapScript => TAPROOT_LEAF_TAPSCRIPT
  | .Future v => v.to_consensus

set_option maxRecDepth 8192 in
theorem leaf_ver_roundtrip_aux :
    ∀ v < 256, (LeafVer.from_consensus_u8 v).map LeafVer.to_consensus_u8 =
      (LeafVer.from_consensus_u8 v).map (fun _ => v) := by
  decide

set_option maxRecDepth 8192 in
/-- **C8.** `from_consensus(0xC0) = TapScript`; `from_consensus(0x50)` errs;
every odd byte errs; every even byte other than `0x50`, `0xC0` yields a
`Future` version; and `to_consensus` inverts every successful parse. -/
theorem leaf_ver_validity :
    LeafVer.from_consensus_u8 0xc0 = .ok .TapScript ∧
    LeafVer.from_consensus_u8 0x50 = .error ⟨0x50⟩ ∧
    (∀ v < 256, v % 2 = 1 →
      LeafVer.from_consensus_u8 v = .error ⟨v⟩) ∧
    (∀ v < 256, v % 2 = 0 → v ≠ 0x50 → v ≠ 0xc0 →
      LeafVer.from_consensus_u8 v = .ok (.Future ⟨v⟩)) ∧
    (∀ v < 256, ∀ l, LeafVer.from_consensus_u8 v = .ok l →
      l.to_consensus_u8 = v) := by
  refine ⟨by decide, by decide, by decide, by decide, ?_⟩
  intro v hv l hl
  have h := leaf_ver_roundtrip_aux v hv
  rw [hl] at h
  simpa [Except.map] using h

/-- **C8 witness.** The leaf-version facts at concrete bytes. -/
theorem leaf_ver_validity_witness :
    LeafVer.from_consensus_u8 0x51 = .error ⟨0x51⟩ ∧
    LeafVer.from_consensus_u8 0x52 = .ok (.Future ⟨0x52⟩) ∧
    (LeafVer.Future ⟨0x52⟩).to_consensus_u8 = 0x52 := by
  refine ⟨?_, ?_, ?_⟩
  · exact leaf_ver_validity.2.2.1 0x51 (by decide) (by decide)
  · exact leaf_ver_validity.2.2.2.1 0x52 (by decide) (by decide) (by decide)
      (by decide)
  · exact leaf_ver_validity.2.2.2.2 0x52 (by decide) _
      (leaf_ver_validity.2.2.2.1 0x52 (by decide) (by decide) (by decide)
        (by decide))

/-! ## TapBranchHash (`primitives/src/taproot.rs` lines 182-189) -/

/-- Lexicographic byte comparison — the `Ord` instance of `Bytes32`
(`cmp::min`/`cmp::max` compare the wrapped byte arrays lexicographically). -/
def cmpBytes : List Nat → List Nat → Ordering
  | [], [] => .eq
  | [], _ :: _ => .lt
  | _ :: _, [] => .gt
  | a :: as, b :: bs =>
    if a < b then .lt else if b < a then .gt else cmpBytes as bs

/-- `cmp::min(v1, v2)` — returns the first argument on ties. -/
def minBytes (a b : List Nat) : List Nat :=
  if cmpBytes a b = .gt then b else a

/-- `cmp::max(v1, v2)` — returns the second argument on ties. -/
def maxBytes (a b : List Nat) : List Nat :=
  if cmpBytes a b = .gt then a else b

/-- The `MIDSTATE_TAPBRANCH` tag: the ASCII bytes of `"TapBranch"`. -/
def MIDSTATE_TAPBRANCH : List Nat := [84, 97, 112, 66, 114, 97, 110, 99, 104]

/-- `TapNodeHash` — 32-byte node hash (modelled as its byte list). -/
def TapNodeHash := List Nat

/-- `TapBranchHash::with_nodes(node1, node2)` — hashes the two child hashes
sorted by `cmp::min`/`cmp::max`. -/
def TapBranchHash.with_nodes (node1 node2 : TapNodeHash) : Digest :=
  let engine := Sha256.from_tag MIDSTATE_TAPBRANCH
  let engine := engine.input_raw (minBytes node1 node2)
  let engine := engine.input_raw (maxBytes node1 node2)
  engine.finish

theorem cmpBytes_eq_iff : ∀ a b : List Nat, cmpBytes a b = .eq ↔ a = b := by
  intro a
  induction a with
  | nil => intro b; cases b <;> simp [cmpBytes]
  | cons x xs ih =>
    intro b
    cases b with
    | nil => simp [cmpBytes]
    | cons y ys =>
      simp only [cmpBytes]
      split_ifs with h1 h2
      · simp; omega
      · simp; omega
      · have hxy : x = y := by omega
        simp [hxy, ih]

theorem cmpBytes_swap_gt : ∀ a b : List Nat,
    cmpBytes a b = .gt ↔ cmpBytes b a = .lt := by
  intro a
  induction a with
  | nil => intro b; cases b <;> simp [cmpBytes]
  | cons x xs ih =>
    intro b
    cases b with
    | nil => simp [cmpBytes]
    | cons y ys =>
      simp only [cmpBytes]
      rcases Nat.lt_trichotomy x y with h | h | h
      · simp [h, Nat.lt_asymm h]
      · subst h
        simp [Nat.lt_irrefl, ih ys]
      · simp [h, Nat.lt_asymm h]

/-- **C9.** `TapBranchHash::with_nodes` is commutative: the two child hashes
are sorted lexicographically before hashing, so the order of the arguments
does not matter. -/
theorem tap_branch_commutative (a b : TapNodeHash) :
    TapBranchHash.with_nodes a b = TapBranchHash.with_nodes b a := by
  unfold TapBranchHash.with_nodes minBytes maxBytes
  rcases hord : cmpBytes a b with hlt | heq | hgt
  · have hba : cmpBytes b a = .gt := (cmpBytes_swap_gt b a).mpr hord
    simp [hord, hba]
  · have hab : a = b := (cmpBytes_eq_iff a b).mp hord
    simp [hab]
  · have hba : cmpBytes b a = .lt := (cmpBytes_swap_gt a b).mp hord
    simp [hord, hba]

/-! ## Textual codec of `RevealedSeal` (`seals/src/txout/blind.rs`)

Rust strings are modelled as `List Char`.  Rendering of `u32`/`u64` values
uses a fuelled base-conversion so that every definition is structurally
recursive and kernel-evaluable. -/

/-- The lowercase hexadecimal digit character of `n < 16`, as Rust's
`{:x}`/`{:#x}` formatting produces it (`0-9` then `a-f`). -/
def hexDigitChar (n : Nat) : Char :=
  if n < 10 then Char.ofNat ('0'.toNat + n)
  else Char.ofNat ('a'.toNat + (n - 10))

/-- Hex-digit predicate of Rust's `from_str_radix(_, 16)` (accepts both
cases). -/
def isHexDigitChar (c : Char) : Bool :=
  (decide ('0' ≤ c) && decide (c ≤ '9')) ||
  (decide ('a' ≤ c) && decide (c ≤ 'f')) ||
  (decide ('A' ≤ c) && decide (c ≤ 'F'))

/-- Decimal-digit predicate of Rust's `u32::from_str`. -/
def isDecDigitChar (c : Char) : Bool :=
  decide ('0' ≤ c) && decide (c ≤ '9')

/-- Numeric value of a digit character (hex digits; decimal digits are the
subset below 10). -/
def hexDigitVal (c : Char) : Nat :=
  if '0' ≤ c ∧ c ≤ '9' then c.toNat - '0'.toNat
  else if 'a' ≤ c ∧ c ≤ 'f' then c.toNat - 'a'.toNat + 10
  else if 'A' ≤ c ∧ c ≤ 'F' then c.toNat - 'A'.toNat + 10
  else 16

/-- Fuelled digits-of-`n` in the given base, most significant first (the
digit loop of Rust's integer `Display`/`LowerHex` formatting). -/
def natToBaseAux (base : Nat) : Nat → Nat → List Char
  | 0, _ => []
  | fuel + 1, n =>
    if n < base then [hexDigitChar n]
    else natToBaseAux base fuel (n / base) ++ [hexDigitChar (n % base)]

/-- Digits of `n` in the given base (the recursion depth is at most `n`). -/
def natToBase (base n : Nat) : List Char := natToBaseAux base (n + 1) n

/-- Rust `{:x}` of a `u64`: lowercase hex digits, no leading zeros. -/
def natToHex (n : Nat) : List Char := natToBase 16 n

/-- Rust `{}` of a `u32`: decimal digits. -/
def natToDec (n : Nat) : List Char := natToBase 10 n

/-- Positional value of a digit string (the fold of `from_str_radix`). -/
def baseVal (base : Nat) (l : List Char) : Nat :=
  l.foldl (fun acc c => acc * base + hexDigitVal c) 0

/-- Strip one leading `+` sign (Rust's integer parsing accepts it; `-` on
an unsigned type is rejected as an invalid digit). -/
def stripPlus (l : List Char) : List Char :=
  match l with
  | c :: r => if c = '+' then r else l
  | [] => l

/-- `u64::from_str_radix(s, 16)`: optional sign, nonempty hex digits,
value below `2^64` (checked arithmetic fails exactly on overflow). -/
def parseU64Hex (l : List Char) : Option Nat :=
  let digits := stripPlus l
  if digits ≠ [] ∧ digits.all isHexDigitChar then
    if baseVal 16 digits < 2 ^ 64 then some (baseVal 16 digits) else none
  else none

/-- `u32::from_str` (decimal). -/
def parseU32Dec (l : List Char) : Option Nat :=
  let digits := stripPlus l
  if digits ≠ [] ∧ digits.all isDecDigitChar then
    if baseVal 10 digits < 2 ^ 32 then some (baseVal 10 digits) else none
  else none

/-- Two lowercase hex chars of one byte. -/
def byteToHex (b : Nat) : List Char := [hexDigitChar (b / 16), hexDigitChar (b % 16)]

/-- Lowercase hex of a byte string. -/
def bytesToHex (bs : List Nat) : List Char := (bs.map byteToHex).flatten

/-- Decode hex char pairs into bytes; fails on a non-hex char or odd
length. -/
def hexPairsToBytes : List Char → Option (List Nat)
  | [] => some []
  | hi :: lo :: rest =>
    if isHexDigitChar hi ∧ isHexDigitChar lo then
      (hexPairsToBytes rest).map
        (fun bs => (hexDigitVal hi * 16 + hexDigitVal lo) :: bs)
    else none
  | _ => none

/-- Modelled from the spec: `bp::Txid`'s textual form is 64 lowercase hex
chars (`bp` is outside `src/`); the display convention reverses the byte
order, which cancels out in the round-trip. -/
def txidChars (t : Txid) : List Char := bytesToHex t.val.reverse

/-- Modelled from the spec: `Txid::from_str` — 64 hex chars decoded to the
32 bytes in reverse order. -/
def parseTxid (l : List Char) : Option Txid :=
  match hexPairsToBytes l with
  | none => none
  | some bs =>
    if h : bs.reverse.length = 32 ∧ ∀ b ∈ bs.reverse, b < 256 then
      some ⟨bs.reverse, h⟩
    else none

/-- ASCII lowercase conversion (`str::to_lowercase`, restricted to the
ASCII range exercised by the method names). -/
def lowerChar (c : Char) : Char :=
  if 'A' ≤ c ∧ c ≤ 'Z' then Char.ofNat (c.toNat + 32) else c

/-- The `Display` strings of `CloseMethod` (`"opret1st"`, `"tapret1st"`). -/
def methodChars : CloseMethod → List Char
  | .OpretFirst => ['o', 'p', 'r', 'e', 't', '1', 's', 't']
  | .TapretFirst => ['t', 'a', 'p', 'r', 'e', 't', '1', 's', 't']

/-- `ParseError` from `seals/src/txout/blind.rs` lines 190-229.  The `Hex`
variant is produced only by `ConcealedSeal::from_str`. -/
inductive ParseError where
  | MethodRequired
  | TxidRequired
  | BlindingRequired
  | WrongMethod (s : List Char)
  | WrongBlinding
  | WrongTxid
  | WrongVout
  | WrongStructure
  | NonHexBlinding
  | Hex (n : Nat)
deriving DecidableEq

/-- `CloseMethod::from_str` (`seals/src/lib.rs` lines 63-77): lowercase the
input and compare with the two display names; the error carries the
original string. -/
def parseMethod (l : List Char) : Except ParseError CloseMethod :=
  if l.map lowerChar = methodChars .OpretFirst then .ok .OpretFirst
  else if l.map lowerChar = methodChars .TapretFirst then .ok .TapretFirst
  else .error (.WrongMethod l)

/-- The blinding field parse of `from_str`:
`u64::from_str_radix(blinding.trim_start_matches("0x"), 16)` mapped to
`WrongBlinding`. -/
def trim0x : List Char → List Char
  | c1 :: c2 :: rest =>
    if c1 = '0' ∧ c2 = 'x' then trim0x rest else c1 :: c2 :: rest
  | l => l

def parseBlinding (l : List Char) : Except ParseError Nat :=
  match parseU64Hex (trim0x l) with
  | some v => .ok v
  | none => .error .WrongBlinding

/-- The vout field parse of `from_str`: `vout.parse()` mapped to
`WrongVout`. -/
def parseVout (l : List Char) : Except ParseError Nat :=
  match parseU32Dec l with
  | some v => .ok v
  | none => .error .WrongVout

/-- Separator set of `from_str`: `s.split(&[':', '#'][..])`. -/
def isSealSep (c : Char) : Bool := c == ':' || c == '#'

/-- Rust `str::split` on the two separators: the list of (possibly empty)
fragments; never empty. -/
def splitSeal : List Char → List (List Char)
  | [] => [[]]
  | c :: rest =>
    if isSealSep c then [] :: splitSeal rest
    else
      match splitSeal rest with
      | [] => [[c]]
      | p :: ps => (c :: p) :: ps

/-- `blinding.starts_with("0x")`. -/
def startsWith0x : List Char → Bool
  | '0' :: 'x' :: _ => true
  | _ => false

/-- The blinding rendering `{:#010x}`: `0x`, then the hex digits zero-padded
to a minimum of 8 (Rust widths are minima, longer values keep all their
digits). -/
def blindingChars (b : Nat) : List Char :=
  '0' :: 'x' :: (List.replicate (8 - (natToHex b).length) '0' ++ natToHex b)

/-- `Display for RevealedSeal` (`blind.rs` lines 284-298):
`{method}:{txid_or_tilde}:{vout}#{blinding:#010x}`. -/
def formatSeal (r : RevealedSeal) : List Char :=
  methodChars r.method ++
    ':' :: (match r.txid with | some t => txidChars t | none => ['~']) ++
    ':' :: natToDec r.vout ++ '#' :: blindingChars r.blinding

/-- `FromStr for RevealedSeal` (`blind.rs` lines 231-282): split on the two
separators, take the first five fragments and match them in the source's
arm order; field parses happen in the struct-literal order (method,
blinding, txid, vout). -/
def fromStrSeal (s : List Char) : Except ParseError RevealedSeal :=
  match splitSeal s with
  | [] => .error .WrongStructure
  | p0 :: rest =>
    if p0 = ['~'] ∨ p0 = [] then .error .MethodRequired
    else
      match rest with
      | [] => .error .WrongStructure
      | p1 :: rest2 =>
        if p1 = [] then .error .TxidRequired
        else
          match rest2 with
          | [] =>
            if s.contains ':' then .error .BlindingRequired
            else .error .WrongStructure
          | p2 :: rest3 =>
            match rest3 with
            | [] => .error .WrongStructure
            | p3 :: rest4 =>
              match rest4 with
              | [] =>
                if startsWith0x p3 = false then .error .NonHexBlinding
                else if p1 = ['~'] then do
                  let m ← parseMethod p0
                  let b ← parseBlinding p3
                  let v ← parseVout p2
                  return ⟨m, none, v, b⟩
                else do
                  let m ← parseMethod p0
                  let b ← parseBlinding p3
                  let t ← match parseTxid p1 with
                    | some t => Except.ok t
                    | none => Except.error ParseError.WrongTxid
                  let v ← parseVout p2
                  return ⟨m, some t, v, b⟩
              | _ => .error .WrongStructure

/-! ### Digit and base-conversion lemmas -/

theorem hexDigit_facts : ∀ m < 16, hexDigitVal (hexDigitChar m) = m ∧
    isHexDigitChar (hexDigitChar m) = true ∧
    isSealSep (hexDigitChar m) = false ∧
    hexDigitChar m ≠ '+' ∧ hexDigitChar m ≠ '~' ∧ hexDigitChar m ≠ 'x' := by
  decide

theorem decDigit_facts : ∀ m < 10, isDecDigitChar (hexDigitChar m) = true := by
  decide

theorem natToBaseAux_fuel (base : Nat) (hb : 2 ≤ base) :
    ∀ f1 : Nat, ∀ n, n < f1 → ∀ f2, n < f2 →
      natToBaseAux base f1 n = natToBaseAux base f2 n := by
  intro f1
  induction f1 with
  | zero => intro n hn; omega
  | succ f ih =>
    intro n hn f2 hn2
    cases f2 with
    | zero => omega
    | succ f2' =>
      simp only [natToBaseAux]
      by_cases hsmall : n < base
      · simp [hsmall]
      · simp only [if_neg hsmall]
        have hdiv : n / base < n := Nat.div_lt_self (by omega) hb
        rw [ih (n / base) (by omega) f2' (by omega)]

theorem natToBase_small (base n : Nat) (h : n < base) :
    natToBase base n = [hexDigitChar n] := by
  simp [natToBase, natToBaseAux, h]

theorem natToBase_step (base n : Nat) (hb : 2 ≤ base) (h : base ≤ n) :
    natToBase base n =
      natToBase base (n / base) ++ [hexDigitChar (n % base)] := by
  have hdiv : n / base < n := Nat.div_lt_self (by omega) hb
  show natToBaseAux base (n + 1) n = _
  simp only [natToBaseAux, if_neg (show ¬ n < base by omega)]
  rw [natToBaseAux_fuel base hb n (n / base) (by omega) (n / base + 1)
    (by omega)]
  rfl

theorem natToBase_ne_nil (base n : Nat) (hb : 2 ≤ base) :
    natToBase base n ≠ [] := by
  by_cases h : n < base
  · rw [natToBase_small base n h]; simp
  · rw [natToBase_step base n hb (by omega)]; simp

theorem natToBase_digits (base : Nat) (hb : 2 ≤ base) :
    ∀ n, ∀ c ∈ natToBase base n, ∃ m, m < base ∧ c = hexDigitChar m := by
  intro n
  induction n using Nat.strong_induction_on with
  | _ n ih =>
    intro c hc
    by_cases h : n < base
    · rw [natToBase_small base n h] at hc
      simp at hc
      exact ⟨n, h, hc⟩
    · rw [natToBase_step base n hb (by omega)] at hc
      rcases List.mem_append.mp hc with h1 | h2
      · exact ih (n / base) (Nat.div_lt_self (by omega) hb) c h1
      · simp at h2
        exact ⟨n % base, Nat.mod_lt n (by omega), h2⟩

theorem baseVal_append_digit (base : Nat) (l : List Char) (c : Char) :
    baseVal base (l ++ [c]) = baseVal base l * base + hexDigitVal c := by
  simp [baseVal, List.foldl_append]

theorem baseVal_roundtrip (base : Nat) (hb : 2 ≤ base) (hb16 : base ≤ 16) :
    ∀ n, baseVal base (natToBase base n) = n := by
  intro n
  induction n using Nat.strong_induction_on with
  | _ n ih =>
    by_cases h : n < base
    · rw [natToBase_small base n h]
      have hd := (hexDigit_facts n (by omega)).1
      simp [baseVal, hd]
    · have hmod : n % base < base := Nat.mod_lt n (by omega)
      rw [natToBase_step base n hb (by omega), baseVal_append_digit,
        ih (n / base) (Nat.div_lt_self (by omega) hb),
        (hexDigit_facts (n % base) (by omega)).1]
      exact Nat.div_add_mod' n base

theorem baseVal_replicate_zero (base k : Nat) (l : List Char) :
    baseVal base (List.replicate k '0' ++ l) = baseVal base l := by
  induction k with
  | zero => simp
  | succ k ih =>
    simp only [List.replicate_succ, List.cons_append]
    simp only [baseVal, List.foldl_cons] at ih ⊢
    have h0 : hexDigitVal '0' = 0 := by decide
    simpa [h0] using ih

theorem natToBase_length_le (base : Nat) (hb : 2 ≤ base) :
    ∀ k, 1 ≤ k → ∀ n, n < base ^ k → (natToBase base n).length ≤ k := by
  intro k
  induction k with
  | zero => omega
  | succ k ih =>
    intro _ n hn
    by_cases h : n < base
    · rw [natToBase_small base n h]
      simp
    · rw [natToBase_step base n hb (by omega)]
      have hk : 1 ≤ k := by
        rcases Nat.eq_zero_or_pos k with hk0 | hk0
        · subst hk0
          simp [pow_one] at hn
          omega
        · omega
      have hdiv : n / base < base ^ k := by
        rw [Nat.div_lt_iff_lt_mul (show 0 < base by omega)]
        calc n < base ^ (k + 1) := hn
          _ = base ^ k * base := by ring
      have := ih hk (n / base) hdiv
      simp only [List.length_append, List.length_singleton]
      omega

theorem natToBase_length_ge (base : Nat) (hb : 2 ≤ base) :
    ∀ n k, (natToBase base n).length ≤ k → n < base ^ k := by
  intro n
  induction n using Nat.strong_induction_on with
  | _ n ih =>
    intro k hk
    by_cases h : n < base
    · rw [natToBase_small base n h] at hk
      simp at hk
      calc n < base := h
        _ = base ^ 1 := (pow_one base).symm
        _ ≤ base ^ k := Nat.pow_le_pow_right (by omega) hk
    · rw [natToBase_step base n hb (by omega)] at hk
      simp only [List.length_append, List.length_singleton] at hk
      have hlen1 : 1 ≤ (natToBase base (n / base)).length := by
        have := natToBase_ne_nil base (n / base) hb
        cases hl : natToBase base (n / base) with
        | nil => exact absurd hl this
        | cons a l => simp
      have hdiv := ih (n / base) (Nat.div_lt_self (by omega) hb) (k - 1)
        (by omega)
      have hmod : n % base < base := Nat.mod_lt n (by omega)
      have heq : base * (n / base) + n % base = n := Nat.div_add_mod n base
      have hstep : n < base * (n / base + 1) := by
        have : base * (n / base + 1) = base * (n / base) + base := by ring
        omega
      have hmul : base * (n / base + 1) ≤ base * base ^ (k - 1) :=
        Nat.mul_le_mul_left base hdiv
      have hpow : base * base ^ (k - 1) = base ^ k := by
        have hk1 : 1 ≤ k := by omega
        calc base * base ^ (k - 1) = base ^ (k - 1) * base := by ring
          _ = base ^ (k - 1 + 1) := (pow_succ base (k - 1)).symm
          _ = base ^ k := by congr 1; omega
      omega

/-! ### Split lemmas -/

theorem splitSeal_ne_nil : ∀ l : List Char, splitSeal l ≠ [] := by
  intro l
  induction l with
  | nil => simp [splitSeal]
  | cons c rest ih =>
    simp only [splitSeal]
    by_cases h : isSealSep c = true
    · simp [h]
    · simp only [h]
      cases hs : splitSeal rest with
      | nil => simp
      | cons p ps => simp

theorem splitSeal_cons_sep (c : Char) (r : List Char)
    (h : isSealSep c = true) : splitSeal (c :: r) = [] :: splitSeal r := by
  simp [splitSeal, h]

theorem splitSeal_append (a r : List Char)
    (h : ∀ c ∈ a, isSealSep c = false) :
    splitSeal (a ++ r) =
      (a ++ (splitSeal r).headI) :: (splitSeal r).tail := by
  induction a with
  | nil =>
    simp only [List.nil_append]
    cases hs : splitSeal r with
    | nil => exact absurd hs (splitSeal_ne_nil r)
    | cons p ps => simp
  | cons c a2 ih =>
    have hc : isSealSep c = false := h c (by simp)
    have ha2 : ∀ x ∈ a2, isSealSep x = false := fun x hx => h x (by simp [hx])
    simp only [List.cons_append, splitSeal, hc, List.append_eq]
    rw [ih ha2]
    simp

theorem splitSeal_nosep (a : List Char) (h : ∀ c ∈ a, isSealSep c = false) :
    splitSeal a = [a] := by
  have hall := splitSeal_append a [] h
  simpa [splitSeal] using hall

theorem splitSeal_canonical (m t v b : List Char)
    (hm : ∀ c ∈ m, isSealSep c = false) (ht : ∀ c ∈ t, isSealSep c = false)
    (hv : ∀ c ∈ v, isSealSep c = false)
    (hb : ∀ c ∈ b, isSealSep c = false) :
    splitSeal (m ++ ':' :: (t ++ ':' :: (v ++ '#' :: b))) = [m, t, v, b] := by
  rw [splitSeal_append m _ hm, splitSeal_cons_sep _ _ (by decide),
    splitSeal_append t _ ht, splitSeal_cons_sep _ _ (by decide),
    splitSeal_append v _ hv, splitSeal_cons_sep _ _ (by decide),
    splitSeal_nosep b hb]
  simp

/-! ### Field-parse round-trip lemmas -/

theorem stripPlus_digits {l : List Char}
    (h : ∀ c ∈ l, ∃ m, m < 16 ∧ c = hexDigitChar m) : stripPlus l = l := by
  cases l with
  | nil => rfl
  | cons c r =>
    obtain ⟨m, hm, hc⟩ := h c (by simp)
    have hne : c ≠ '+' := by
      subst hc
      exact (hexDigit_facts m hm).2.2.2.1
    simp [stripPlus, hne]

theorem all_hex_of_digits {l : List Char}
    (h : ∀ c ∈ l, ∃ m, m < 16 ∧ c = hexDigitChar m) :
    l.all isHexDigitChar = true := by
  rw [List.all_eq_true]
  intro c hc
  obtain ⟨m, hm, rfl⟩ := h c hc
  exact (hexDigit_facts m hm).2.1

theorem all_dec_of_digits {l : List Char}
    (h : ∀ c ∈ l, ∃ m, m < 10 ∧ c = hexDigitChar m) :
    l.all isDecDigitChar = true := by
  rw [List.all_eq_true]
  intro c hc
  obtain ⟨m, hm, rfl⟩ := h c hc
  exact decDigit_facts m hm

theorem nosep_of_digits {l : List Char}
    (h : ∀ c ∈ l, ∃ m, m < 16 ∧ c = hexDigitChar m) :
    ∀ c ∈ l, isSealSep c = false := by
  intro c hc
  obtain ⟨m, hm, rfl⟩ := h c hc
  exact (hexDigit_facts m hm).2.2.1

theorem trim0x_digits {l : List Char}
    (h : ∀ c ∈ l, ∃ m, m < 16 ∧ c = hexDigitChar m) : trim0x l = l := by
  cases l with
  | nil => rfl
  | cons c1 r1 =>
    cases r1 with
    | nil => rfl
    | cons c2 r2 =>
      obtain ⟨m2, hm2, hc2⟩ := h c2 (by simp)
      have hx : ¬ (c1 = '0' ∧ c2 = 'x') := by
        rintro ⟨h1, h2⟩
        subst hc2
        exact (hexDigit_facts m2 hm2).2.2.2.2.2 h2
      simp [trim0x, hx]

theorem padded_digits (b : Nat) :
    ∀ c ∈ List.replicate (8 - (natToHex b).length) '0' ++ natToHex b,
      ∃ m, m < 16 ∧ c = hexDigitChar m := by
  intro c hc
  rcases List.mem_append.mp hc with h1 | h2
  · have h0 : c = '0' := List.eq_of_mem_replicate h1
    exact ⟨0, by omega, by rw [h0]; rfl⟩
  · exact natToBase_digits 16 (by omega) b c h2

theorem parseU64Hex_pad (b : Nat) (hb : b < 2 ^ 64) :
    parseU64Hex
      (List.replicate (8 - (natToHex b).length) '0' ++ natToHex b) =
      some b := by
  have hdig := padded_digits b
  have hne : List.replicate (8 - (natToHex b).length) '0' ++ natToHex b ≠
      [] := by
    simp [natToBase_ne_nil 16 b (by omega), natToHex]
  have hval : baseVal 16
      (List.replicate (8 - (natToHex b).length) '0' ++ natToHex b) = b := by
    rw [baseVal_replicate_zero]
    exact baseVal_roundtrip 16 (by omega) (by omega) b
  unfold parseU64Hex
  rw [stripPlus_digits hdig, if_pos ⟨hne, all_hex_of_digits hdig⟩, hval,
    if_pos hb]

theorem parseBlinding_roundtrip (b : Nat) (hb : b < 2 ^ 64) :
    parseBlinding (blindingChars b) = .ok b := by
  unfold parseBlinding blindingChars
  have htrim : trim0x ('0' :: 'x' ::
      (List.replicate (8 - (natToHex b).length) '0' ++ natToHex b)) =
      List.replicate (8 - (natToHex b).length) '0' ++ natToHex b := by
    rw [show trim0x ('0' :: 'x' ::
        (List.replicate (8 - (natToHex b).length) '0' ++ natToHex b)) =
        trim0x (List.replicate (8 - (natToHex b).length) '0' ++ natToHex b)
      from by simp [trim0x]]
    exact trim0x_digits (padded_digits b)
  rw [htrim, parseU64Hex_pad b hb]

theorem parseVout_roundtrip (v : Nat) (hv : v < 2 ^ 32) :
    parseVout (natToDec v) = .ok v := by
  have hdig10 : ∀ c ∈ natToDec v, ∃ m, m < 10 ∧ c = hexDigitChar m :=
    fun c hc => natToBase_digits 10 (by omega) v c hc
  have hdig16 : ∀ c ∈ natToDec v, ∃ m, m < 16 ∧ c = hexDigitChar m :=
    fun c hc => (hdig10 c hc).imp fun m ⟨hm, he⟩ => ⟨by omega, he⟩
  have hval : baseVal 10 (natToDec v) = v :=
    baseVal_roundtrip 10 (by omega) (by omega) v
  unfold parseVout parseU32Dec
  rw [stripPlus_digits hdig16,
    if_pos ⟨natToBase_ne_nil 10 v (by omega), all_dec_of_digits hdig10⟩,
    hval, if_pos hv]

theorem parseMethod_roundtrip (m : CloseMethod) :
    parseMethod (methodChars m) = .ok m := by
  cases m <;> decide

theorem bytesToHex_pairs (bs : List Nat) (h : ∀ b ∈ bs, b < 256) :
    hexPairsToBytes (bytesToHex bs) = some bs := by
  induction bs with
  | nil => rfl
  | cons b r ih =>
    have hb : b < 256 := h b (by simp)
    have hr : ∀ x ∈ r, x < 256 := fun x hx => h x (by simp [hx])
    have hhi := hexDigit_facts (b / 16) (by omega)
    have hlo := hexDigit_facts (b % 16) (by omega)
    simp only [bytesToHex, List.map_cons, List.flatten_cons, byteToHex,
      List.cons_append, List.nil_append]
    rw [hexPairsToBytes, if_pos ⟨hhi.2.1, hlo.2.1⟩]
    have hrw : hexPairsToBytes ((r.map byteToHex).flatten) = some r := by
      simpa [bytesToHex] using ih hr
    rw [hrw]
    simp only [Option.map_some']
    have hval : hexDigitVal (hexDigitChar (b / 16)) * 16 +
        hexDigitVal (hexDigitChar (b % 16)) = b := by
      rw [hhi.1, hlo.1]
      omega
    rw [hval]

theorem parseTxid_roundtrip (t : Txid) : parseTxid (txidChars t) = some t := by
  unfold parseTxid txidChars
  have hbytes : ∀ b ∈ t.val.reverse, b < 256 := fun b hb =>
    t.property.2 b (List.mem_reverse.mp hb)
  rw [bytesToHex_pairs _ hbytes]
  split
  next heq => exact Option.noConfusion heq
  next bs heq =>
    obtain rfl : t.val.reverse = bs := Option.some.inj heq
    simp only [List.reverse_reverse]
    rw [dif_pos ⟨t.property.1, t.property.2⟩]
    rfl

theorem bytesToHex_length (bs : List Nat) :
    (bytesToHex bs).length = 2 * bs.length := by
  induction bs with
  | nil => rfl
  | cons b r ih =>
    simp only [bytesToHex, List.map_cons, List.flatten_cons, byteToHex,
      List.cons_append, List.nil_append, List.length_cons] at ih ⊢
    omega

theorem bytesToHex_digits (bs : List Nat) (h : ∀ b ∈ bs, b < 256) :
    ∀ c ∈ bytesToHex bs, ∃ m, m < 16 ∧ c = hexDigitChar m := by
  induction bs with
  | nil => simp [bytesToHex]
  | cons b r ih =>
    have hb : b < 256 := h b (by simp)
    have hr : ∀ x ∈ r, x < 256 := fun x hx => h x (by simp [hx])
    intro c hc
    simp only [bytesToHex, List.map_cons, List.flatten_cons, byteToHex,
      List.cons_append, List.nil_append, List.mem_cons] at hc
    rcases hc with rfl | rfl | hc
    · exact ⟨b / 16, by omega, rfl⟩
    · exact ⟨b % 16, by omega, rfl⟩
    · exact ih hr c (by simpa [bytesToHex] using hc)

/-! ### Part-shape lemmas and the round-trip theorems -/

theorem methodChars_nosep (m : CloseMethod) :
    ∀ c ∈ methodChars m, isSealSep c = false := by
  cases m <;> decide

theorem methodChars_not_special (m : CloseMethod) :
    ¬ (methodChars m = ['~'] ∨ methodChars m = []) := by
  cases m <;> decide

theorem natToDec_nosep (v : Nat) : ∀ c ∈ natToDec v, isSealSep c = false := by
  intro c hc
  obtain ⟨k, hk, rfl⟩ := natToBase_digits 10 (by omega) v c hc
  exact (hexDigit_facts k (by omega)).2.2.1

theorem blindingChars_nosep (b : Nat) :
    ∀ c ∈ blindingChars b, isSealSep c = false := by
  intro c hc
  simp only [blindingChars, List.mem_cons] at hc
  rcases hc with rfl | rfl | hc
  · decide
  · decide
  · exact nosep_of_digits (padded_digits b) c hc

theorem txidChars_nosep (t : Txid) :
    ∀ c ∈ txidChars t, isSealSep c = false := by
  intro c hc
  have hbytes : ∀ x ∈ t.val.reverse, x < 256 := fun x hx =>
    t.property.2 x (List.mem_reverse.mp hx)
  obtain ⟨k, hk, rfl⟩ := bytesToHex_digits _ hbytes c hc
  exact (hexDigit_facts k hk).2.2.1

theorem txidChars_length (t : Txid) : (txidChars t).length = 64 := by
  simp [txidChars, bytesToHex_length, t.property.1]

/-- **C3.** Parsing the canonical textual form of any well-formed
`RevealedSeal` (any method, optional txid, `u32` vout, `u64` blinding)
yields exactly the original seal:
`RevealedSeal::from_str(s.to_string()) == Ok(s)`. -/
theorem seal_roundtrip (r : RevealedSeal) (h : r.WF) :
    fromStrSeal (formatSeal r) = .ok r := by
  obtain ⟨m, txid, v, b⟩ := r
  obtain ⟨hv, hb⟩ := h
  have hstart : startsWith0x (blindingChars b) = true := rfl
  cases txid with
  | none =>
    have hsplit :
        splitSeal (formatSeal ⟨m, none, v, b⟩) =
          [methodChars m, ['~'], natToDec v, blindingChars b] := by
      have hc := splitSeal_canonical (methodChars m) ['~'] (natToDec v)
        (blindingChars b) (methodChars_nosep m) (by decide)
        (natToDec_nosep v) (blindingChars_nosep b)
      simpa [formatSeal] using hc
    unfold fromStrSeal
    rw [hsplit]
    dsimp only
    rw [if_neg (methodChars_not_special m)]
    simp only [hstart]
    rw [parseMethod_roundtrip m, parseBlinding_roundtrip b hb,
      parseVout_roundtrip v hv]
    rfl
  | some t =>
    have htne : txidChars t ≠ ['~'] := by
      intro he
      have hl := txidChars_length t
      rw [he] at hl
      simp at hl
    have htne2 : txidChars t ≠ [] := by
      intro he
      have hl := txidChars_length t
      rw [he] at hl
      simp at hl
    have hsplit :
        splitSeal (formatSeal ⟨m, some t, v, b⟩) =
          [methodChars m, txidChars t, natToDec v, blindingChars b] := by
      have hc := splitSeal_canonical (methodChars m) (txidChars t)
        (natToDec v) (blindingChars b) (methodChars_nosep m)
        (txidChars_nosep t) (natToDec_nosep v) (blindingChars_nosep b)
      simpa [formatSeal] using hc
    unfold fromStrSeal
    rw [hsplit]
    dsimp only
    rw [if_neg (methodChars_not_special m), if_neg htne2]
    simp only [hstart]
    rw [if_neg htne]
    rw [parseMethod_roundtrip m, parseBlinding_roundtrip b hb,
      parseTxid_roundtrip t, parseVout_roundtrip v hv]
    rfl

/-- **C3 witness.** The round-trip at a concrete well-formed seal. -/
theorem seal_roundtrip_witness :
    (RevealedSeal.WF ⟨.TapretFirst, some zeroTxid, 21, 49⟩) ∧
      fromStrSeal (formatSeal ⟨.TapretFirst, some zeroTxid, 21, 49⟩) =
        .ok ⟨.TapretFirst, some zeroTxid, 21, 49⟩ :=
  ⟨by decide, seal_roundtrip _ (by decide)⟩

/-- **C4 (counterexample).** The repository's own test value
`blinding = 54683213134637` (`0x31bbed7e7b2d`, 12 hex digits) renders with
more than 8 hex digits after `0x`: the rendered blinding field is not 10
characters long, refuting "exactly 8 zero-padded hex characters for every
u64 value". -/
theorem blinding_not_fixed_width :
    (blindingChars 54683213134637).length ≠ 10 := by
  intro h10
  have hlen : (blindingChars 54683213134637).length =
      2 + ((8 - (natToHex 54683213134637).length) +
        (natToHex 54683213134637).length) := by
    simp [blindingChars]
    omega
  have hle : (natToHex 54683213134637).length ≤ 8 := by omega
  have := natToBase_length_ge 16 (by omega) 54683213134637 8 hle
  norm_num at this

/-- **C4 (amended).** The blinding renders as `0x` followed by the hex
digits zero-padded to a minimum of 8 characters (Rust `{:#010x}` widths are
minima): the rendered length is `2 + max 8 (hex-digit count)`, and it
equals 10 (exactly 8 digits after `0x`) precisely when the blinding fits in
32 bits. -/
theorem blinding_width (b : Nat) :
    (blindingChars b).length = 2 + max 8 (natToHex b).length ∧
      ((blindingChars b).length = 10 ↔ b < 2 ^ 32) := by
  have hlen : (blindingChars b).length =
      2 + ((8 - (natToHex b).length) + (natToHex b).length) := by
    simp [blindingChars]
    omega
  have hpow : (16 : Nat) ^ 8 = 2 ^ 32 := by norm_num
  constructor
  · rw [hlen]
    omega
  · rw [hlen]
    constructor
    · intro h10
      have hle : (natToHex b).length ≤ 8 := by omega
      have := natToBase_length_ge 16 (by omega) b 8 hle
      omega
    · intro hb32
      have hle : (natToHex b).length ≤ 8 :=
        natToBase_length_le 16 (by omega) 8 (by omega) b (by omega)
      omega

/-! ## LNPBP-2 lock-script engine (`dbc/src/lockscript.rs`)

The engine's collaborators live outside `src/`: the Miniscript extractor and
rewriter (`bitcoin_scripts`), the `hash160` digest and secp256k1 keys
(`bitcoin`), and the LNPBP-1 `KeysetCommitment` (`dbc`, file not included).
Keys and `hash160` are modelled symbolically (free constructors); the
extractor and rewriter are parameters of `embed_commit`; the keyset
commitment is modelled from the spec (§4.C.1). -/

/-- The LNPBP-1 tweaking factor: symbolically, the HMAC-SHA256 with key
`tagged_sha256(tag, sum_encoding)` over the message (spec §4.C.1). -/
structure Factor where
  tag : List Nat
  sumEnc : List Nat
  msg : List Nat
deriving DecidableEq

/-- A secp256k1 public key, symbolic: either an input key or `p + t·G`,
the result of adding a tweak scalar derived from a factor. -/
inductive PubKey where
  | base (n : Nat)
  | tweakAdd (p : PubKey) (t : Factor)
deriving DecidableEq

/-- Symbolic 33-byte compressed encoding of a key (external secp256k1
serialization; only used as an opaque byte string). -/
def PubKey.compressedEnc : PubKey → List Nat
  | .base n => [2, n]
  | .tweakAdd p t => 3 :: p.compressedEnc ++ t.tag ++ t.sumEnc ++ t.msg

/-- A `hash160::Hash` value.  `hash160` (RIPEMD160 of SHA256) is external;
modelled as the free constructor over the preimage. -/
structure Hash160 where
  pre : List Nat
deriving DecidableEq

/-- `hash160::Hash::hash(bytes)`. -/
def hash160 (bs : List Nat) : Hash160 := ⟨bs⟩

/-- Insertion step of the lexicographic key sort (by compressed encoding). -/
def insertKey (k : PubKey) : List PubKey → List PubKey
  | [] => [k]
  | x :: xs =>
    if cmpBytes k.compressedEnc x.compressedEnc = .gt then
      x :: insertKey k xs
    else k :: x :: xs

/-- Sort a keyset lexicographically by compressed encoding (the `BTreeSet`
iteration order demanded by spec §4.C step 7). -/
def sortKeys : List PubKey → List PubKey
  | [] => []
  | x :: xs => insertKey x (sortKeys xs)

/-- The deterministic encoding of the key-set sum fed to the LNPBP-1 tweak
hash (spec §4.C.1: the curve-point sum over the sorted keyset; symbolically
the sorted concatenation of the compressed encodings). -/
def keysetSumEnc (keys : List PubKey) : List Nat :=
  ((sortKeys keys).map PubKey.compressedEnc).flatten

/-- `KeysetContainer` from the `dbc` crate. -/
structure KeysetContainer where
  pubkey : PubKey
  keyset : List PubKey
  tag : List Nat
  tweaking_factor : Option Factor
deriving DecidableEq

/-- Modelled from the spec: the LNPBP-1 key-set commitment (§4.C.1), whose
implementation (`dbc` `KeysetCommitment::embed_commit`) is not under `src/`.
It derives `t = HMAC-SHA256(key = tagged_sha256(tag, sum_encoding), msg)`,
stores `t` as the tweaking factor and returns `p' = p + t·G`.  Per spec §7
class 4 it fails only on negligible cryptographic events, so it is total
here. -/
def keysetEmbedCommit (kc : KeysetContainer) (msg : List Nat) :
    KeysetContainer × PubKey :=
  let t : Factor := ⟨kc.tag, keysetSumEnc kc.keyset, msg⟩
  ({ kc with tweaking_factor := some t }, .tweakAdd kc.pubkey t)

/-- Errors of the external Miniscript parser/rewriter. -/
inductive ExtError where
  | parse (n : Nat)
deriving DecidableEq

/-- The lock-script engine errors (spec §6 stable identifiers), plus the
variant wrapping external parser errors (the `?` conversions in the
source). -/
inductive Error where
  | LockscriptContainsNoKeys
  | LockscriptKeyNotFound
  | LockscriptContainsUnknownHashes
  | InvalidProofStructure
  | Parser (e : ExtError)
deriving DecidableEq

/-- The two external Miniscript operations consumed by the engine (spec §9):
`extract_pubkey_hash_set` and `replace_pubkeys_and_hashes`. -/
structure ScriptExt where
  extract : List Nat → Except ExtError (List PubKey × List Hash160)
  repl : List Nat → (PubKey → PubKey) → (Hash160 → Hash160) →
    Except ExtError (List Nat)

/-- `LockscriptContainer` from `dbc/src/lockscript.rs` lines 40-49. -/
structure LockscriptContainer where
  script : List Nat
  pubkey : PubKey
  tag : List Nat
  tweaking_factor : Option Factor
deriving DecidableEq

/-- The `key_hashes` set of `dbc/src/lockscript.rs` lines 167-171: the
`hash160` of every extracted key's encoding, with `original_hash` (the
`hash160` of the container key's compressed encoding) inserted. -/
def key_hashes_of (pubkey : PubKey) (keys : List PubKey) : List Hash160 :=
  hash160 pubkey.compressedEnc :: keys.map (fun k => hash160 k.compressedEnc)

/-- The validation of `dbc/src/lockscript.rs` lines 174-179: for a
hash-free script the container key must be among the extracted keys; for a
script with hashes every hash must be in `key_hashes`. -/
def lockscriptCheck (pubkey : PubKey) (keys : List PubKey)
    (hashes : List Hash160) : Except Error Unit :=
  if hashes.isEmpty then
    if pubkey ∈ keys then .ok () else .error .LockscriptKeyNotFound
  else if hashes.any (fun h => decide (h ∉ key_hashes_of pubkey keys)) then
    .error .LockscriptContainsUnknownHashes
  else .ok ()

/-- The tail of `embed_commit` (`dbc/src/lockscript.rs` lines 181-230) once
validation has passed: run the keyset commitment, record the tweaking
factor into the container, and rewrite the script, substituting the
tweaked key for the container key and the tweaked hash for
`original_hash`. -/
def embedFinish (ext : ScriptExt) (container : LockscriptContainer)
    (msg : List Nat) (keys : List PubKey) :
    LockscriptContainer × Except Error (List Nat) :=
  let res := keysetEmbedCommit ⟨container.pubkey, keys, container.tag, none⟩ msg
  let container2 :=
    { container with tweaking_factor := res.1.tweaking_factor }
  match ext.repl container.script
      (fun k => if k = container.pubkey then res.2 else k)
      (fun h => if h = hash160 container.pubkey.compressedEnc then
        hash160 res.2.compressedEnc else h) with
  | .error e => (container2, .error (.Parser e))
  | .ok s => (container2, .ok s)

/-- `LockscriptCommitment::embed_commit` (`dbc/src/lockscript.rs` lines
149-231), with in-place container mutation made explicit: the result pairs
the final container state with the outcome.  Extracted keys are modelled
directly as curve points (the `Segwitv0` context admits only compressed
keys, so `key.to_bytes()` is the compressed encoding and the `BTreeSet`
conversion that drops the encoding flag is the identity here). -/
def embed_commit (ext : ScriptExt) (container : LockscriptContainer)
    (msg : List Nat) : LockscriptContainer × Except Error (List Nat) :=
  match ext.extract container.script with
  | .error e => (container, .error (.Parser e))
  | .ok (keys, hashes) =>
    if keys.isEmpty ∧ hashes.isEmpty then
      (container, .error .LockscriptContainsNoKeys)
    else
      match lockscriptCheck container.pubkey keys hashes with
      | .error e => (container, .error e)
      | .ok _ => embedFinish ext container msg keys

theorem embedFinish_fst (ext : ScriptExt) (c : LockscriptContainer)
    (msg : List Nat) (keys : List PubKey) :
    (embedFinish ext c msg keys).1 =
      { c with tweaking_factor := some ⟨c.tag, keysetSumEnc keys, msg⟩ } := by
  simp only [embedFinish, keysetEmbedCommit]
  split <;> rfl

theorem embedFinish_err (ext : ScriptExt) (c : LockscriptContainer)
    (msg : List Nat) (keys : List PubKey) (e : Error)
    (h : (embedFinish ext c msg keys).2 = .error e) : ∃ pe, e = .Parser pe := by
  simp only [embedFinish] at h
  split at h
  · simp only [Except.error.injEq] at h
    exact ⟨_, h.symm⟩
  · simp at h

/-- **C6.** Whenever the script extractor yields no public keys and no
public-key hashes (a script built solely from time-locks and pre-image
locks), `embed_commit` fails with exactly `LockscriptContainsNoKeys`, and
the container is untouched. -/
theorem embed_commit_no_keys (ext : ScriptExt) (c : LockscriptContainer)
    (msg : List Nat) (h : ext.extract c.script = .ok ([], [])) :
    embed_commit ext c msg = (c, .error .LockscriptContainsNoKeys) := by
  simp [embed_commit, h]

/-- **C6 witness.** The empty-extraction rejection at a concrete input. -/
theorem embed_commit_no_keys_witness :
    let ext : ScriptExt :=
      { extract := fun _ => .ok ([], []), repl := fun s _ _ => .ok s }
    let c : LockscriptContainer :=
      { script := [81], pubkey := .base 0, tag := [1], tweaking_factor := none }
    embed_commit ext c [7] = (c, .error .LockscriptContainsNoKeys) :=
  embed_commit_no_keys _ _ _ rfl

/-- **C7.** When the extracted hash set is non-empty, `embed_commit` fails
with `LockscriptContainsUnknownHashes` if and only if some extracted hash
is neither the `hash160` of a compressed key appearing in the script nor
the `hash160` of the compressed encoding of the container's own pubkey (in
particular, a hash resolving only to the container's pubkey passes this
check). -/
theorem embed_commit_unknown_hashes (ext : ScriptExt)
    (c : LockscriptContainer) (msg : List Nat)
    (keys : List PubKey) (hashes : List Hash160)
    (hx : ext.extract c.script = .ok (keys, hashes)) (hne : hashes ≠ []) :
    (embed_commit ext c msg).2 = .error .LockscriptContainsUnknownHashes ↔
      ∃ h ∈ hashes, h ∉ key_hashes_of c.pubkey keys := by
  have hnemp : hashes.isEmpty = false := by
    cases hashes with
    | nil => exact absurd rfl hne
    | cons a l => rfl
  rw [embed_commit, hx]
  simp only [hnemp, Bool.false_eq_true, and_false, if_false]
  rw [lockscriptCheck]
  simp only [hnemp, Bool.false_eq_true, if_false]
  by_cases hany :
      hashes.any (fun h => decide (h ∉ key_hashes_of c.pubkey keys)) = true
  · simp only [hany, if_true]
    simp only [List.any_eq_true, decide_eq_true_eq] at hany
    simpa using hany
  · simp only [hany, Bool.false_eq_true, if_false]
    simp only [List.any_eq_true, decide_eq_true_eq, not_exists, not_and] at hany
    constructor
    · intro hcontra
      obtain ⟨pe, hpe⟩ := embedFinish_err ext c msg keys _ hcontra
      exact absurd hpe (by simp)
    · intro ⟨h, hmem, hnot⟩
      exact absurd hnot (by simpa using hany h hmem)

/-- **C7 witness.** The unknown-hash characterisation at concrete inputs:
a script whose only hash is the container key's own hash is accepted. -/
theorem embed_commit_unknown_hashes_witness :
    let ownHash := hash160 (PubKey.base 0).compressedEnc
    let ext : ScriptExt :=
      { extract := fun _ => .ok ([], [ownHash]), repl := fun s _ _ => .ok s }
    let c : LockscriptContainer :=
      { script := [81], pubkey := .base 0, tag := [1], tweaking_factor := none }
    ¬ (embed_commit ext c [7]).2 = .error .LockscriptContainsUnknownHashes := by
  intro ownHash ext c hcontra
  obtain ⟨h, hmem, hnot⟩ :=
    (embed_commit_unknown_hashes ext c [7] [] [hash160 [2, 0]] rfl
      (by simp)).mp hcontra
  simp only [List.mem_singleton] at hmem
  subst hmem
  exact hnot (by simp [key_hashes_of, hash160, PubKey.compressedEnc])

/-- **C1 (counterexample).** A failing `embed_commit` call that leaves the
container changed: when the final script-rewrite step fails after the
keyset commitment succeeded, the call returns an error yet the container's
`tweaking_factor` is populated — the claimed atomicity fails. -/
theorem embed_commit_not_atomic :
    let ext : ScriptExt :=
      { extract := fun _ => .ok ([.base 0], []),
        repl := fun _ _ _ => .error (.parse 0) }
    let c : LockscriptContainer :=
      { script := [81], pubkey := .base 0, tag := [1], tweaking_factor := none }
    (∃ e, (embed_commit ext c [7]).2 = .error e) ∧
      (embed_commit ext c [7]).1.tweaking_factor ≠ none := by
  exact ⟨⟨.Parser (.parse 0), by decide⟩, by decide⟩

/-- **C1 (amended).** On any failing `embed_commit` call the script, pubkey
and tag of the container are unchanged, and the `tweaking_factor` is also
unchanged unless the failure came from the external parser (the only
fallible step after the keyset commitment has recorded the factor). -/
theorem embed_commit_failure_state (ext : ScriptExt)
    (c : LockscriptContainer) (msg : List Nat) (e : Error)
    (h : (embed_commit ext c msg).2 = .error e) :
    ((embed_commit ext c msg).1.script = c.script ∧
      (embed_commit ext c msg).1.pubkey = c.pubkey ∧
      (embed_commit ext c msg).1.tag = c.tag) ∧
    ((embed_commit ext c msg).1.tweaking_factor = c.tweaking_factor ∨
      ∃ pe, e = .Parser pe) := by
  rw [embed_commit] at h ⊢
  split at h
  next e1 heq =>
    exact ⟨⟨rfl, rfl, rfl⟩, .inr ⟨e1, (Except.error.inj h).symm⟩⟩
  next keys hashes heq =>
    split at h
    next hemp =>
      rw [if_pos hemp]
      exact ⟨⟨rfl, rfl, rfl⟩, .inl rfl⟩
    next hemp =>
      rw [if_neg hemp]
      split at h
      next e2 heq2 =>
        exact ⟨⟨rfl, rfl, rfl⟩, .inl rfl⟩
      next u heq2 =>
        rw [embedFinish_fst]
        exact ⟨⟨rfl, rfl, rfl⟩, .inr (embedFinish_err ext c msg keys e h)⟩

/-- **C1 (amended) witness.** The amended failure-state facts at a concrete
failing call. -/
theorem embed_commit_failure_state_witness :
    let ext : ScriptExt :=
      { extract := fun _ => .ok ([], []), repl := fun s _ _ => .ok s }
    let c : LockscriptContainer :=
      { script := [81], pubkey := .base 0, tag := [1], tweaking_factor := none }
    ((embed_commit ext c [7]).1.script = c.script ∧
      (embed_commit ext c [7]).1.pubkey = c.pubkey ∧
      (embed_commit ext c [7]).1.tag = c.tag) ∧
    ((embed_commit ext c [7]).1.tweaking_factor = c.tweaking_factor ∨
      ∃ pe, Error.LockscriptContainsNoKeys = .Parser pe) :=
  embed_commit_failure_state _ _ [7] .LockscriptContainsNoKeys
    (by simp [embed_commit])

end BpCore
